import Mathlib

/-!
Verification of the ddollar core against its specification.

This file gives a shallow embedding, in Lean 4, of the parts of the ddollar
repository that the specification claims are about:

* the token rotation pool (src/tokens/pool.go),
* the hosts-file redirection manager (src/hosts/hosts.go, src/hosts/backup.go),
* the watchdog cleanup loop (src/watchdog/watchdog.go),
* the leaf-certificate manager (src/proxy/cert.go),
* the trust-store installer (src/proxy/mkcert.go),
* the intercepting reverse proxy request handler (src/proxy/server.go).

File contents are modelled as lists of characters, filesystem and
trust-store side effects as explicit state records, and Go maps as
association lists whose lookup returns the most recently inserted binding.
All definitions are executable; theorems about them follow at the end.
-/

set_option maxRecDepth 4000

namespace DDollar

/-! ## Token rotation pool (src/tokens/pool.go, src/tokens/providers.go) -/

/-- A provider configuration, from the Provider struct of providers.go:
name, routing domain, environment variables consulted during discovery,
and the authentication header and value prefix used on upstream requests. -/
structure Provider where
  name : String
  domain : String
  envVars : List String
  authHeader : String
  authPrefix : String
deriving DecidableEq

/-- Per-provider rotation state, from the ProviderPool struct of pool.go:
the provider, its ordered token list, and the current rotation index. -/
structure ProviderPool where
  provider : Provider
  tokens : List String
  index : Nat
deriving DecidableEq

/-- The pool maps routing domains to provider pools.  The Go map
`providers map[string]*ProviderPool` is modelled as an association list in
which the most recently inserted binding for a key shadows older ones. -/
abbrev Pool := List (String × ProviderPool)

/-- Lookup of a domain in the pool, the model of a Go map read. -/
def poolLookup (p : Pool) (d : String) : Option ProviderPool :=
  match p with
  | [] => none
  | (k, v) :: rest => if k = d then some v else poolLookup rest d

/-- Pool.AddProvider: reject an empty token list, otherwise bind the
provider domain to a fresh ProviderPool with rotation index zero
(overwriting any previous binding). -/
def addProvider (p : Pool) (pr : Provider) (tokens : List String) :
    Except String Pool :=
  if tokens = [] then
    .error ("no tokens provided for " ++ pr.name)
  else
    .ok ((pr.domain, { provider := pr, tokens := tokens, index := 0 }) :: p)

/-- Pool.GetToken: fail (leaving the pool untouched) when the domain is
unregistered, otherwise return the token at the current index and advance
the index modulo the token-list length.  The inner `none` branch models the
Go runtime panic that an out-of-range index access would raise; the pool
invariant proved below shows it is unreachable. -/
def getToken (p : Pool) (d : String) :
    Except String (String × Provider) × Pool :=
  match poolLookup p d with
  | none => (.error ("no tokens available for domain: " ++ d), p)
  | some pp =>
    match pp.tokens[pp.index]? with
    | none => (.error "index out of range", p)
    | some token =>
      (.ok (token, pp.provider),
       (d, { pp with index := (pp.index + 1) % pp.tokens.length }) :: p)

/-- The results of n consecutive GetToken calls for one domain, threading
the pool state from call to call. -/
def getTokenSeq (p : Pool) (d : String) :
    Nat → List (Except String (String × Provider))
  | 0 => []
  | Nat.succ n =>
    (getToken p d).1 :: getTokenSeq (getToken p d).2 d n

/-- One externally visible pool operation. -/
inductive PoolOp where
  | addOp (pr : Provider) (tokens : List String)
  | getOp (d : String)

/-- State effect of one pool operation (a failing AddProvider leaves the
pool unchanged, as in the Go code). -/
def applyOp (p : Pool) : PoolOp → Pool
  | .addOp pr tokens =>
    match addProvider p pr tokens with
    | .ok p' => p'
    | .error _ => p
  | .getOp d => (getToken p d).2

/-- State after a sequence of pool operations. -/
def runOps (p : Pool) (ops : List PoolOp) : Pool :=
  ops.foldl applyOp p

/-- The pool invariant: every registered provider has a non-empty token
list and a rotation index strictly below the token-list length. -/
def PoolWF (p : Pool) : Prop :=
  ∀ d pp, poolLookup p d = some pp →
    pp.tokens ≠ [] ∧ pp.index < pp.tokens.length

/-! ## Hosts-file redirection (src/hosts/hosts.go)

File contents are lists of characters.  The Go functions below operate on
the raw content string; the filesystem-level operations that thread the
hosts file and its backup through explicit state follow afterwards. -/

/-- The start marker of the ddollar block (constant ddollarMarkerStart). -/
def markerStart : List Char := ("# ddollar START - DO NOT EDIT").data

/-- The end marker of the ddollar block (constant ddollarMarkerEnd). -/
def markerEnd : List Char := ("# ddollar END").data

/-- The managed AI provider domains redirected by the hosts manager
(variable Providers of hosts.go). -/
def hostsProviders : List (List Char) :=
  [("api.openai.com").data, ("api.anthropic.com").data,
   ("api.cohere.ai").data, ("generativelanguage.googleapis.com").data]

/-- Go strings.Contains: sub occurs as a contiguous substring of s. -/
def containsSub (s sub : List Char) : Bool :=
  decide (sub <:+: s)

/-- bufio dropCR: strip one trailing carriage return, as bufio.ScanLines
does for every line it emits. -/
def dropCR (l : List Char) : List Char :=
  if l.getLast? = some '\r' then l.dropLast else l

/-- Worker for scanLines: acc is the current (unterminated) line read so
far.  A final line at end of input is emitted even without a terminating
newline, matching bufio.Scanner with bufio.ScanLines. -/
def scanLinesAux (acc : List Char) : List Char → List (List Char)
  | [] => [dropCR acc]
  | c :: rest =>
    if c = '\n' then
      match rest with
      | [] => [dropCR acc]
      | _ :: _ => dropCR acc :: scanLinesAux [] rest
    else scanLinesAux (acc ++ [c]) rest

/-- The sequence of lines produced by bufio.Scanner over the content (used
by Remove); empty content yields no lines. -/
def scanLines (cs : List Char) : List (List Char) :=
  match cs with
  | [] => []
  | c :: rest => scanLinesAux [] (c :: rest)

/-- The line-dropping loop of Remove: a line containing the start marker
turns the inDdollarBlock flag on and is dropped, a line containing the end
marker turns it off and is dropped, any other line is kept iff the flag is
off. -/
def removeLoop (inBlock : Bool) : List (List Char) → List (List Char)
  | [] => []
  | line :: rest =>
    if containsSub line markerStart then removeLoop true rest
    else if containsSub line markerEnd then removeLoop false rest
    else if inBlock then removeLoop inBlock rest
    else line :: removeLoop inBlock rest

/-- Go strings.Join with separator newline. -/
def joinLines : List (List Char) → List Char
  | [] => []
  | [l] => l
  | l :: l' :: rest => l ++ '\n' :: joinLines (l' :: rest)

/-- The cleaned content of Remove before the trailing-newline fixup:
drop the marker-delimited block line-wise and rejoin with newlines. -/
def removeContentCore (c : List Char) : List Char :=
  joinLines (removeLoop false (scanLines c))

/-- Remove, on content: drop the marker-delimited block line-wise, rejoin
with newlines, and ensure a trailing newline. -/
def removeContent (c : List Char) : List Char :=
  let nc := removeContentCore c
  if nc.getLast? = some '\n' then nc else nc ++ ['\n']

/-- The block of text Add appends to the hosts file: a blank line, the
start marker, one 127.0.0.1 line per managed domain, and the end marker,
each newline-terminated. -/
def entriesString : List Char :=
  '\n' :: (markerStart ++ '\n' ::
    ((hostsProviders.map (fun p => ("127.0.0.1 ").data ++ p ++ ['\n'])).flatten
      ++ (markerEnd ++ ['\n'])))

/-- Add, on content: fail when the start marker is already present,
otherwise append the ddollar block. -/
def addContent (c : List Char) : Except String (List Char) :=
  if containsSub c markerStart then
    .error "ddollar entries already exist in hosts file"
  else
    .ok (c ++ entriesString)

/-- IsActive, on content: the start marker occurs in the file. -/
def isActiveContent (c : List Char) : Bool :=
  containsSub c markerStart

/-- The same appended block, viewed as a list of lines (the leading blank
line, the start marker line, one redirection line per managed domain, and
the end marker line). -/
def addedLines : List (List Char) :=
  [] :: markerStart ::
    (hostsProviders.map (fun p => ("127.0.0.1 ").data ++ p) ++ [markerEnd])

/-- Reassemble a list of lines into file content, terminating every line
with a newline.  A well-formed hosts file is unlines of its lines. -/
def unlines (ls : List (List Char)) : List Char :=
  ls.foldr (fun l acc => l ++ '\n' :: acc) []

/-! ## Hosts filesystem state (src/hosts/backup.go, src/hosts/hosts.go) -/

/-- State of the two files the hosts manager touches: the hosts file and
its colocated backup.  `none` models a missing or unreadable file. -/
structure HostsFS where
  hosts : Option (List Char)
  backup : Option (List Char)
deriving DecidableEq

/-- Backup: read the hosts file and overwrite the backup file with its
content. -/
def backupOp (fs : HostsFS) : Except String HostsFS :=
  match fs.hosts with
  | none => .error "failed to read hosts file"
  | some d => .ok { fs with backup := some d }

/-- Add at the filesystem level: create the backup first, then re-read the
hosts file, fail if the marker block is already present, otherwise append
the block and replace the hosts file.  The returned state reflects all
writes performed before a failure (in particular the backup write). -/
def hostsAdd (fs : HostsFS) : Except String Unit × HostsFS :=
  match backupOp fs with
  | .error e => (.error ("failed to create backup: " ++ e), fs)
  | .ok fs1 =>
    match fs1.hosts with
    | none => (.error "failed to read hosts file", fs1)
    | some c =>
      match addContent c with
      | .error e => (.error e, fs1)
      | .ok nc => (.ok (), { fs1 with hosts := some nc })

/-- Remove at the filesystem level. -/
def hostsRemove (fs : HostsFS) : Except String Unit × HostsFS :=
  match fs.hosts with
  | none => (.error "failed to open hosts file", fs)
  | some c => (.ok (), { fs with hosts := some (removeContent c) })

/-- Restore: fail when no backup exists, otherwise overwrite the hosts
file with the backup content and delete the backup file. -/
def hostsRestore (fs : HostsFS) : Except String Unit × HostsFS :=
  match fs.backup with
  | none => (.error "backup file does not exist", fs)
  | some b => (.ok (), { hosts := some b, backup := none })

/-- HasBackup: a backup file exists. -/
def hasBackup (fs : HostsFS) : Bool :=
  fs.backup.isSome

/-! ## Leaf certificate manager (src/proxy/cert.go)

Time instants are integers (seconds); certificate parsing and key material
are abstracted away, keeping exactly the fields ValidateCert and
GenerateCert inspect: the validity window, the SAN list, and the issuer. -/

/-- Validity length of a freshly generated leaf certificate, in seconds
(generateLeafCert: NotAfter = now + 365 days). -/
def leafValiditySeconds : Int := 365 * 24 * 60 * 60

/-- The parsed fields of a leaf certificate that the manager inspects. -/
structure LeafCert where
  notBefore : Int
  notAfter : Int
  dnsNames : List String
  issuer : String
deriving DecidableEq

/-- The fixed domain list GenerateCert covers (variable domains). -/
def certDomains : List String :=
  ["api.openai.com", "api.anthropic.com", "api.cohere.ai",
   "generativelanguage.googleapis.com", "localhost"]

/-- The fixed domain list ValidateCert requires (variable
requiredDomains). -/
def requiredDomains : List String :=
  ["api.openai.com", "api.anthropic.com", "api.cohere.ai",
   "generativelanguage.googleapis.com", "localhost"]

/-- generateLeafCert: a fresh leaf certificate signed by the ddollar CA,
valid from now for 365 days, with the given DNS names. -/
def generateLeafCert (now : Int) (domains : List String) : LeafCert :=
  { notBefore := now
    notAfter := now + leafValiditySeconds
    dnsNames := domains
    issuer := "ddollar Local CA" }

/-- ValidateCert at time now: fail when the file is missing, when the
certificate is not yet valid or expired, or when any required domain is
absent from its SAN list (reporting the first missing one). -/
def validateCert (now : Int) : Option LeafCert → Except String Unit
  | none => .error "certificate file not found"
  | some cert =>
    if now < cert.notBefore then .error "certificate not yet valid"
    else if cert.notAfter < now then .error "certificate expired"
    else
      match requiredDomains.find? (fun req => !(cert.dnsNames.contains req)) with
      | some req => .error ("certificate does not cover required domain: " ++ req)
      | none => .ok ()

/-- State of the certs directory: the leaf certificate file, if present. -/
structure CertState where
  cert : Option LeafCert
deriving DecidableEq

/-- GenerateCert at time now: keep the existing certificate when it is
present and passes validation, otherwise write a freshly generated one.
The boolean records whether a regeneration happened. -/
def generateCertOp (now : Int) (st : CertState) : CertState × Bool :=
  match st.cert with
  | some _ =>
    match validateCert now st.cert with
    | .ok _ => (st, false)
    | .error _ => ({ cert := some (generateLeafCert now certDomains) }, true)
  | none => ({ cert := some (generateLeafCert now certDomains) }, true)

/-! ## Trust store installer (src/proxy/mkcert.go)

The claims about trust verification cite the Linux paths, so the platform
store state keeps the two Linux anchor files.  The CA certificate file
under the user cert directory is modelled as present and parseable (it is
ddollar's own file and UninstallTrust never deletes it). -/

/-- The fields of the ddollar CA that trust verification inspects. -/
structure CAInfo where
  validFrom : Int
  validUntil : Int
  commonName : String
deriving DecidableEq

/-- Presence of the ddollar CA anchor in the two Linux trust-store
locations (the Debian/Ubuntu ddollar.crt and the RHEL/Fedora
ddollar.pem). -/
structure TrustStoreLinux where
  debInstalled : Bool
  rhelInstalled : Bool
deriving DecidableEq

/-- The chain verification step of VerifyTrust: the Go code builds a fresh
x509.CertPool, adds the CA certificate itself to it, and calls cert.Verify
with that pool as Roots and ExtKeyUsageAny.  A self-signed certificate
verified against a pool containing itself succeeds exactly when the
current time lies within its validity window; the system trust store is
not consulted. -/
def certVerifySelfPool (ca : CAInfo) (now : Int) : Bool :=
  decide (ca.validFrom ≤ now ∧ now ≤ ca.validUntil)

/-- verifyTrustLinux: the CA counts as trusted when either Linux anchor
file exists. -/
def verifyTrustLinux (st : TrustStoreLinux) : Except String Unit :=
  if st.debInstalled then .ok ()
  else if st.rhelInstalled then .ok ()
  else .error "CA not found in Linux trust store"

/-- installTrustLinux on a Debian/Ubuntu system: copy the anchor into
place (the NSS attempt is non-fatal and does not affect this state). -/
def installTrustLinuxDeb (st : TrustStoreLinux) : TrustStoreLinux :=
  { st with debInstalled := true }

/-- uninstallTrustLinux, successful path: both anchor files are removed
and the trust bundles refreshed. -/
def uninstallTrustLinux (_st : TrustStoreLinux) : TrustStoreLinux :=
  { debInstalled := false, rhelInstalled := false }

/-- VerifyTrust on Linux: first the chain verification against the
self-containing pool; only if that fails, the platform store inspection. -/
def verifyTrust (ca : CAInfo) (now : Int) (st : TrustStoreLinux) :
    Except String Unit :=
  if certVerifySelfPool ca now then .ok ()
  else verifyTrustLinux st

/-! ## Watchdog (src/watchdog/watchdog.go)

The watchdog loop is modelled by the trace of externally visible actions
it emits, driven by a finite list of parent-liveness observations (one per
one-second tick) and by the outcome its single hosts.Remove call would
have. -/

/-- An externally visible action of the watchdog process. -/
inductive WatchdogAction where
  | logMsg (s : String)
  | removeHosts
  | installTrustOp
  | uninstallTrustOp
  | stderrMsg (s : String)
deriving DecidableEq

/-- Recognizer for the hosts cleanup action. -/
def WatchdogAction.isRemove : WatchdogAction → Bool
  | .removeHosts => true
  | _ => false

/-- Recognizer for the trust-store actions (never emitted by the
watchdog). -/
def WatchdogAction.isTrustOp : WatchdogAction → Bool
  | .installTrustOp => true
  | .uninstallTrustOp => true
  | _ => false

/-- cleanup: log, call hosts.Remove exactly once, then log the outcome; on
failure additionally print manual-cleanup instructions to stderr. -/
def cleanupActions (removeResult : Except String Unit) : List WatchdogAction :=
  .logMsg "Watchdog: Cleaning up /etc/hosts..." ::
  .removeHosts ::
  (match removeResult with
   | .error e =>
     [.logMsg ("Watchdog: Failed to clean up hosts file: " ++ e),
      .stderrMsg ("ERROR: Watchdog failed to clean up /etc/hosts: " ++ e ++ "\n"),
      .stderrMsg "Please manually edit /etc/hosts and remove ddollar entries\n"]
   | .ok _ =>
     [.logMsg "Watchdog: Successfully cleaned up /etc/hosts"])

/-- RunWatchdog: poll the liveness observations tick by tick; while the
parent is alive, do nothing; on the first tick at which the parent no
longer exists, run cleanup once and return.  An exhausted trace models a
watchdog still polling a live parent. -/
def runWatchdogActions (parentAlive : List Bool)
    (removeResult : Except String Unit) : List WatchdogAction :=
  match parentAlive with
  | [] => []
  | alive :: rest =>
    if alive then runWatchdogActions rest removeResult
    else cleanupActions removeResult

/-! ## Intercepting reverse proxy (src/proxy/server.go)

Headers are modelled by association lists of canonical MIME header keys,
the representation net/http maintains; Del and Set canonicalize their
argument as textproto does. -/

/-- Go textproto validHeaderFieldByte: the token characters allowed in a
header field name (RFC 7230 tchar). -/
def validHeaderFieldChar (c : Char) : Bool :=
  c.isAlphanum ||
    [33, 35, 36, 37, 38, 39, 42, 43, 45, 46, 94, 95, 96, 124, 126].contains c.toNat

/-- One step of canonicalization: uppercase the letter when it starts the
key or follows a hyphen, lowercase it otherwise. -/
def canonChar (upper : Bool) (c : Char) : Char :=
  if upper && ('a' ≤ c && c ≤ 'z') then Char.ofNat (c.toNat - 32)
  else if !upper && ('A' ≤ c && c ≤ 'Z') then Char.ofNat (c.toNat + 32)
  else c

/-- Canonicalize a list of key characters, tracking whether the next
letter starts a hyphen-separated word. -/
def canonList (upper : Bool) : List Char → List Char
  | [] => []
  | c :: rest =>
    let c' := canonChar upper c
    c' :: canonList (c' = '-') rest

/-- Go textproto CanonicalMIMEHeaderKey: canonicalize a valid key, return
an invalid key unchanged. -/
def canonicalKey (s : String) : String :=
  if s.data.all validHeaderFieldChar then ⟨canonList true s.data⟩ else s

/-- A header map: canonical keys paired with their value lists. -/
abbrev Header := List (String × List String)

/-- Header.Get (on canonical storage): first binding of the canonical
key. -/
def hGet (h : Header) (k : String) : Option (List String) :=
  match h with
  | [] => none
  | (k', v) :: rest => if k' = canonicalKey k then some v else hGet rest k

/-- Header.Del: remove every binding of the canonical key. -/
def hDel (h : Header) (k : String) : Header :=
  h.filter (fun e => !(e.1 == canonicalKey k))

/-- Header.Set: bind the canonical key to the single given value. -/
def hSet (h : Header) (k v : String) : Header :=
  (canonicalKey k, [v]) :: hDel h k

/-- The parts of an inbound request that handleRequest reads. -/
structure HttpRequest where
  host : String
  method : String
  path : String
  rawQuery : String
  headers : Header
deriving DecidableEq

/-- The upstream request assembled by the reverse-proxy director. -/
structure UpstreamRequest where
  scheme : String
  urlHost : String
  hostHeader : String
  method : String
  path : String
  rawQuery : String
  headers : Header
deriving DecidableEq

/-- net/http singleJoiningSlash, used by the stock reverse-proxy director
to join the target path with the request path. -/
def singleJoiningSlash (a b : String) : String :=
  let aslash := a.data.getLast? = some '/'
  let bslash := b.data.head? = some '/'
  if aslash && bslash then a ++ (⟨b.data.drop 1⟩ : String)
  else if !aslash && !bslash then a ++ "/" ++ b
  else a ++ b

/-- handleRequest: look up a token for the request host; on failure answer
503 and leave the pool as GetToken left it; on success run the stock
single-host director (target scheme https, target host and path and query
taken from the inbound URL) followed by the ddollar director override,
which re-forces scheme and host, strips the three client auth headers, and
injects the provider auth header. -/
def handleRequest (pool : Pool) (r : HttpRequest) :
    Except (Nat × String) UpstreamRequest × Pool :=
  let domain := r.host
  match getToken pool domain with
  | (.error _, pool') =>
    (.error (503, "No API tokens configured for this provider"), pool')
  | (.ok (token, provider), pool') =>
    let targetQuery := r.rawQuery
    let joinedPath := singleJoiningSlash r.path r.path
    let joinedQuery :=
      if targetQuery = "" || r.rawQuery = "" then targetQuery ++ r.rawQuery
      else targetQuery ++ "&" ++ r.rawQuery
    let hs :=
      hSet (hDel (hDel (hDel r.headers "Authorization") "x-api-key") "x-goog-api-key")
        provider.authHeader (provider.authPrefix ++ token)
    (.ok { scheme := "https"
           urlHost := domain
           hostHeader := domain
           method := r.method
           path := joinedPath
           rawQuery := joinedQuery
           headers := hs }, pool')

/-! ## Pool lemmas -/

/-- A successful GetToken on a registered domain with an in-range index
returns the indexed token and reinserts the pool entry with the index
advanced modulo the token count. -/
lemma getToken_eq_of_lookup {p : Pool} {d : String} {pp : ProviderPool}
    (h : poolLookup p d = some pp) (hi : pp.index < pp.tokens.length) :
    getToken p d =
      (.ok (pp.tokens.getD pp.index "", pp.provider),
       (d, { pp with index := (pp.index + 1) % pp.tokens.length }) :: p) := by
  have hget : pp.tokens[pp.index]? = some (pp.tokens.getD pp.index "") := by
    rw [List.getElem?_eq_getElem hi, List.getD_eq_getElem pp.tokens "" hi]
  unfold getToken
  rw [h]
  simp only [hget]

/-- Token stream of consecutive GetToken calls, starting anywhere in the
rotation: the k-th call returns the token at position (i + k) modulo the
token count. -/
lemma getTokenSeq_of_lookup (d : String) (pr : Provider) (ts : List String) :
    ∀ (n i : Nat) (p : Pool), i < ts.length →
      poolLookup p d = some { provider := pr, tokens := ts, index := i } →
      getTokenSeq p d n =
        (List.range n).map (fun k => .ok (ts.getD ((i + k) % ts.length) "", pr)) := by
  intro n
  induction n with
  | zero => intro i p _ _; rfl
  | succ n ih =>
    intro i p hi hp
    have hstep := getToken_eq_of_lookup hp hi
    have hlen : 0 < ts.length := Nat.lt_of_le_of_lt (Nat.zero_le _) hi
    have hlook :
        poolLookup ((d, { provider := pr, tokens := ts, index := (i + 1) % ts.length }) :: p) d
          = some { provider := pr, tokens := ts, index := (i + 1) % ts.length } := by
      simp [poolLookup]
    have htail := ih ((i + 1) % ts.length) _ (Nat.mod_lt _ hlen) hlook
    show (getToken p d).1 :: getTokenSeq (getToken p d).2 d n = _
    rw [hstep]
    dsimp only
    rw [htail, List.range_succ_eq_map, List.map_cons, List.map_map]
    congr 1
    · rw [Nat.add_zero, Nat.mod_eq_of_lt hi]
    · apply List.map_congr_left
      intro k _
      simp only [Function.comp]
      rw [Nat.mod_add_mod]
      have hik : i + 1 + k = i + (k + 1) := by omega
      rw [hik]

/-- Claim C4: for every provider registered with a non-empty token list of
length N, consecutive GetToken calls for that domain return the tokens in
list order and cycle with period N: the k-th call (counting from zero)
returns the token at position k mod N. -/
theorem getToken_cycles (pr : Provider) (ts : List String) (p₀ p₁ : Pool)
    (hts : ts ≠ []) (hadd : addProvider p₀ pr ts = .ok p₁) (n : Nat) :
    getTokenSeq p₁ pr.domain n =
      (List.range n).map (fun k => .ok (ts.getD (k % ts.length) "", pr)) := by
  have hne : ¬ ts = [] := hts
  unfold addProvider at hadd
  rw [if_neg hne] at hadd
  cases hadd
  have hlen : 0 < ts.length := List.length_pos.mpr hts
  have hlook :
      poolLookup ((pr.domain, { provider := pr, tokens := ts, index := 0 }) :: p₀) pr.domain
        = some { provider := pr, tokens := ts, index := 0 } := by
    simp [poolLookup]
  have h := getTokenSeq_of_lookup pr.domain pr ts n 0 _ hlen hlook
  simpa using h

/-- The Acme provider of the concrete rotation scenario. -/
def acmeProvider : Provider :=
  { name := "Acme", domain := "api.acme.test", envVars := [],
    authHeader := "Authorization", authPrefix := "Bearer " }

/-- The pool produced by registering Acme with tokens t1, t2, t3. -/
def acmePool : Pool :=
  [("api.acme.test",
    { provider := acmeProvider, tokens := ["t1", "t2", "t3"], index := 0 })]

/-- Witness for claim C4: registering tokens t1, t2, t3 for api.acme.test
and calling GetToken six times yields t1, t2, t3, t1, t2, t3. -/
theorem getToken_cycles_witness :
    addProvider [] acmeProvider ["t1", "t2", "t3"] = .ok acmePool ∧
    getTokenSeq acmePool "api.acme.test" 6 =
      [.ok ("t1", acmeProvider), .ok ("t2", acmeProvider), .ok ("t3", acmeProvider),
       .ok ("t1", acmeProvider), .ok ("t2", acmeProvider), .ok ("t3", acmeProvider)] := by
  refine ⟨rfl, ?_⟩
  have h := getToken_cycles acmeProvider ["t1", "t2", "t3"] [] acmePool
    (by decide) rfl 6
  rw [show acmeProvider.domain = "api.acme.test" from rfl] at h
  rw [h]
  rfl

/-- The empty pool is well formed. -/
lemma poolWF_nil : PoolWF [] := by
  intro d pp h
  simp [poolLookup] at h

/-- AddProvider preserves the pool invariant. -/
lemma poolWF_addProvider {p p' : Pool} {pr : Provider} {ts : List String}
    (hwf : PoolWF p) (h : addProvider p pr ts = .ok p') : PoolWF p' := by
  unfold addProvider at h
  by_cases hts : ts = []
  · rw [if_pos hts] at h; cases h
  · rw [if_neg hts] at h
    cases h
    intro d pp hl
    simp only [poolLookup] at hl
    split at hl
    · cases hl
      exact ⟨hts, List.length_pos.mpr hts⟩
    · exact hwf d pp hl

/-- GetToken on an unregistered domain fails and leaves the pool
unchanged. -/
lemma getToken_eq_of_lookup_none {p : Pool} {d : String}
    (h : poolLookup p d = none) :
    getToken p d = (.error ("no tokens available for domain: " ++ d), p) := by
  unfold getToken
  rw [h]

/-- GetToken preserves the pool invariant. -/
lemma poolWF_getToken {p : Pool} (hwf : PoolWF p) (d : String) :
    PoolWF (getToken p d).2 := by
  cases hl : poolLookup p d with
  | none => rw [getToken_eq_of_lookup_none hl]; exact hwf
  | some pp =>
    have hpp := hwf d pp hl
    rw [getToken_eq_of_lookup hl hpp.2]
    intro d' pp' hl'
    simp only [poolLookup] at hl'
    split at hl'
    · cases hl'
      refine ⟨hpp.1, ?_⟩
      exact Nat.mod_lt _ (List.length_pos.mpr hpp.1)
    · exact hwf d' pp' hl'

/-- Every single pool operation preserves the invariant. -/
lemma poolWF_applyOp {p : Pool} (hwf : PoolWF p) (op : PoolOp) :
    PoolWF (applyOp p op) := by
  cases op with
  | addOp pr ts =>
    show PoolWF (match addProvider p pr ts with | .ok p' => p' | .error _ => p)
    cases ha : addProvider p pr ts with
    | ok p' => exact poolWF_addProvider hwf ha
    | error e => exact hwf
  | getOp d => exact poolWF_getToken hwf d

/-- Every pool reachable by a sequence of operations from a well-formed
pool is well formed. -/
lemma poolWF_runOps {p : Pool} (hwf : PoolWF p) (ops : List PoolOp) :
    PoolWF (runOps p ops) := by
  induction ops generalizing p with
  | nil => exact hwf
  | cons op rest ih => exact ih (poolWF_applyOp hwf op)

/-- Claim C9: AddProvider rejects an empty token list; every sequence of
pool operations from the empty pool preserves the invariant that each
registered token list is non-empty with rotation index in range; under the
invariant, the GetToken index access is in bounds (it returns the indexed
token, never reaching the out-of-range branch); and GetToken for an
unregistered domain fails leaving the pool exactly as it was. -/
theorem pool_invariant_props :
    (∀ (p : Pool) (pr : Provider),
      addProvider p pr [] = .error ("no tokens provided for " ++ pr.name)) ∧
    (∀ ops : List PoolOp, PoolWF (runOps [] ops)) ∧
    (∀ (p : Pool) (d : String), PoolWF p → ∀ pp, poolLookup p d = some pp →
      pp.index < pp.tokens.length ∧
      (getToken p d).1 = .ok (pp.tokens.getD pp.index "", pp.provider)) ∧
    (∀ (p : Pool) (d : String), poolLookup p d = none →
      getToken p d = (.error ("no tokens available for domain: " ++ d), p)) := by
  refine ⟨?_, ?_, ?_, ?_⟩
  · intro p pr; rfl
  · intro ops; exact poolWF_runOps poolWF_nil ops
  · intro p d hwf pp hl
    have hpp := hwf d pp hl
    refine ⟨hpp.2, ?_⟩
    rw [getToken_eq_of_lookup hl hpp.2]
  · intro p d hl
    unfold getToken
    rw [hl]

/-- A concrete well-formed single-provider pool mid-rotation. -/
def demoPool : Pool :=
  [("api.acme.test",
    { provider := acmeProvider, tokens := ["t1", "t2"], index := 1 })]

/-- Well-formedness of the concrete demo pool. -/
lemma poolWF_demoPool : PoolWF demoPool := by
  intro d pp h
  simp only [demoPool, poolLookup] at h
  split at h
  · cases h; exact ⟨by decide, by decide⟩
  · cases h

/-- Witness for claim C9 at concrete inputs: empty registration is
rejected, a concrete operation sequence keeps the pool well formed, the
in-range access returns token t2 for the demo pool, and GetToken on an
empty pool fails without changing it. -/
theorem pool_invariant_props_witness :
    addProvider [] acmeProvider [] = .error "no tokens provided for Acme" ∧
    PoolWF (runOps [] [.addOp acmeProvider ["t1", "t2"], .getOp "api.acme.test"]) ∧
    ((getToken demoPool "api.acme.test").1 = .ok ("t2", acmeProvider)) ∧
    getToken [] "api.acme.test" =
      (.error "no tokens available for domain: api.acme.test", []) := by
  have h := pool_invariant_props
  refine ⟨h.1 [] acmeProvider, h.2.1 _, ?_, h.2.2.2 [] "api.acme.test" rfl⟩
  have h3 := h.2.2.1 demoPool "api.acme.test" poolWF_demoPool
    { provider := acmeProvider, tokens := ["t1", "t2"], index := 1 } rfl
  exact h3.2

/-! ## Hosts-file lemmas -/

/-- unlines distributes over list append. -/
lemma unlines_append (xs ys : List (List Char)) :
    unlines (xs ++ ys) = unlines xs ++ unlines ys := by
  induction xs with
  | nil => rfl
  | cons l rest ih => simp [unlines] at ih ⊢; simp [ih]

/-- unlines of a non-empty line list is non-empty. -/
lemma unlines_ne_nil {ls : List (List Char)} (h : ls ≠ []) : unlines ls ≠ [] := by
  cases ls with
  | nil => exact absurd rfl h
  | cons l rest => simp [unlines]

/-- getLast? of an append with a non-empty right part. -/
lemma getLast?_append_right {l₁ l₂ : List Char} (h : l₂ ≠ []) :
    (l₁ ++ l₂).getLast? = l₂.getLast? := by
  rw [List.getLast?_append]
  cases l₂ with
  | nil => exact absurd rfl h
  | cons a t =>
    cases hg : (a :: t).getLast? with
    | none => simp [List.getLast?_cons] at hg
    | some c => rfl

/-- unlines of a non-empty line list ends with a newline. -/
lemma unlines_getLast {ls : List (List Char)} (h : ls ≠ []) :
    (unlines ls).getLast? = some '\n' := by
  induction ls with
  | nil => exact absurd rfl h
  | cons l rest ih =>
    show (l ++ '\n' :: unlines rest).getLast? = some '\n'
    cases rest with
    | nil =>
      rw [getLast?_append_right (by simp)]
      rfl
    | cons l' rest' =>
      rw [getLast?_append_right (by simp)]
      have := ih (by simp)
      show ('\n' :: unlines (l' :: rest')).getLast? = some '\n'
      rw [List.getLast?_cons, this]
      rfl

/-- dropCR leaves a line alone when it does not end in a carriage
return. -/
lemma dropCR_eq_self {l : List Char} (h : l.getLast? ≠ some '\r') :
    dropCR l = l := by
  unfold dropCR
  rw [if_neg h]

/-- scanLines on non-empty content starts the worker with an empty
accumulator. -/
lemma scanLines_eq_aux {cs : List Char} (h : cs ≠ []) :
    scanLines cs = scanLinesAux [] cs := by
  cases cs with
  | nil => exact absurd rfl h
  | cons c rest => rfl

/-- The worker consumes one newline-terminated line: it emits the
accumulated characters (carriage-return stripped) and continues with the
rest, stopping when the newline ended the input. -/
lemma scanLinesAux_line {l : List Char} (hnl : '\n' ∉ l) :
    ∀ (acc tail : List Char),
      scanLinesAux acc (l ++ '\n' :: tail) =
        if tail.isEmpty then [dropCR (acc ++ l)]
        else dropCR (acc ++ l) :: scanLinesAux [] tail := by
  induction l with
  | nil =>
    intro acc tail
    show scanLinesAux acc ('\n' :: tail) = _
    cases tail with
    | nil => simp [scanLinesAux]
    | cons t ts => simp [scanLinesAux]
  | cons c cs ih =>
    intro acc tail
    have hc : c ≠ '\n' := fun hc => hnl (hc ▸ List.mem_cons_self c cs)
    have hcs : '\n' ∉ cs := fun hm => hnl (List.mem_cons_of_mem c hm)
    show scanLinesAux acc (c :: (cs ++ '\n' :: tail)) = _
    have hstep : scanLinesAux acc (c :: (cs ++ '\n' :: tail)) =
        scanLinesAux (acc ++ [c]) (cs ++ '\n' :: tail) := by
      simp [scanLinesAux, hc]
    rw [hstep, ih hcs (acc ++ [c]) tail]
    simp [List.append_assoc]

/-- scanLines inverts unlines on a non-empty list of well-formed lines
(no embedded newline, no trailing carriage return). -/
lemma scanLines_unlines : ∀ {ls : List (List Char)}, ls ≠ [] →
    (∀ l ∈ ls, '\n' ∉ l ∧ l.getLast? ≠ some '\r') →
    scanLines (unlines ls) = ls := by
  intro ls
  induction ls with
  | nil => intro hne _; exact absurd rfl hne
  | cons l rest ih =>
    intro _ h
    have hl := h l (List.mem_cons_self l rest)
    rw [scanLines_eq_aux (unlines_ne_nil (by simp))]
    show scanLinesAux [] (l ++ '\n' :: unlines rest) = l :: rest
    rw [scanLinesAux_line hl.1 [] (unlines rest)]
    cases rest with
    | nil => simp [unlines, dropCR_eq_self hl.2]
    | cons l' rest' =>
      have hun : (unlines (l' :: rest')).isEmpty = false := by
        cases hu : unlines (l' :: rest') with
        | nil => exact absurd hu (unlines_ne_nil (by simp))
        | cons a t => rfl
      have ihr := ih (by simp) (fun x hx => h x (List.mem_cons_of_mem l hx))
      rw [hun]
      simp only [Bool.false_eq_true, if_false, List.nil_append,
        dropCR_eq_self hl.2]
      rw [← scanLines_eq_aux (unlines_ne_nil (by simp)), ihr]

/-- The removal loop keeps a marker-free prefix of the line list intact
and processes the rest, still outside the block. -/
lemma removeLoop_append_clean {ls : List (List Char)}
    (h : ∀ l ∈ ls, containsSub l markerStart = false ∧
      containsSub l markerEnd = false) (rest : List (List Char)) :
    removeLoop false (ls ++ rest) = ls ++ removeLoop false rest := by
  induction ls with
  | nil => rfl
  | cons l tl ih =>
    have hl := h l (List.mem_cons_self l tl)
    have hstep : removeLoop false (l :: (tl ++ rest)) =
        l :: removeLoop false (tl ++ rest) := by
      simp [removeLoop, hl.1, hl.2]
    show removeLoop false (l :: (tl ++ rest)) = (l :: tl) ++ removeLoop false rest
    rw [hstep, ih (fun x hx => h x (List.mem_cons_of_mem l hx))]
    rfl

/-- The removal loop erases the whole appended block except the leading
blank line Add wrote before the start marker. -/
lemma removeLoop_addedLines : removeLoop false addedLines = [[]] := by
  decide

/-- Joining lines with newlines after re-appending a final empty line is
unlines of the original non-empty line list. -/
lemma joinLines_concat_nil {ls : List (List Char)} (h : ls ≠ []) :
    joinLines (ls ++ [[]]) = unlines ls := by
  induction ls with
  | nil => exact absurd rfl h
  | cons l rest ih =>
    cases rest with
    | nil => rfl
    | cons l' rest' =>
      show joinLines (l :: ((l' :: rest') ++ [[]])) = _
      have ihr := ih (by simp)
      show l ++ '\n' :: joinLines ((l' :: rest') ++ [[]]) = l ++ '\n' :: unlines (l' :: rest')
      rw [ihr]

/-- An infix of a substring-free string is itself substring-free. -/
lemma containsSub_false_trans {s l sub : List Char}
    (hs : containsSub s sub = false) (hl : l <:+: s) :
    containsSub l sub = false := by
  cases hc : containsSub l sub with
  | false => rfl
  | true =>
    have : sub <:+: l := of_decide_eq_true hc
    have : sub <:+: s := this.trans hl
    rw [containsSub, decide_eq_true this] at hs
    cases hs

/-- Every line is an infix of the unlines of any line list containing
it. -/
lemma infix_unlines {l : List Char} {ls : List (List Char)} (h : l ∈ ls) :
    l <:+: unlines ls := by
  induction ls with
  | nil => cases h
  | cons a rest ih =>
    cases h with
    | head => exact (List.prefix_append l ('\n' :: unlines rest)).isInfix
    | tail _ hmem =>
      have hsuf : unlines rest <:+ unlines (a :: rest) := by
        refine ⟨a ++ ['\n'], ?_⟩
        show (a ++ ['\n']) ++ unlines rest = a ++ '\n' :: unlines rest
        simp
      exact (ih hmem).trans hsuf.isInfix

/-- Zeta-expanded form of removeContent. -/
lemma removeContent_eq (c : List Char) :
    removeContent c =
      if (removeContentCore c).getLast? = some '\n' then removeContentCore c
      else removeContentCore c ++ ['\n'] := rfl

/-- The appended block text is exactly the unlines of its line view. -/
lemma entriesString_eq_unlines : entriesString = unlines addedLines := by
  decide

/-- Claim C2: Remove deletes exactly the marker-delimited redirection
block and preserves every non-managed line in content and order.  For any
non-empty hosts file made of well-formed lines (no embedded newline, no
trailing carriage return) that nowhere contains a marker string, Add
appends exactly the original content plus the marker block of 127.0.0.1
lines for the managed domains, and Remove afterwards restores the original
content byte for byte. -/
theorem hosts_add_remove_roundtrip (ls : List (List Char))
    (hne : ls ≠ [])
    (hlines : ∀ l ∈ ls, '\n' ∉ l ∧ l.getLast? ≠ some '\r')
    (hms : containsSub (unlines ls) markerStart = false)
    (hme : containsSub (unlines ls) markerEnd = false) :
    addContent (unlines ls) = .ok (unlines (ls ++ addedLines)) ∧
    removeContent (unlines (ls ++ addedLines)) = unlines ls := by
  constructor
  · unfold addContent
    rw [if_neg (by rw [hms]; exact Bool.false_ne_true)]
    rw [unlines_append, entriesString_eq_unlines]
  · have happne : (ls ++ addedLines) ≠ [] := by
      intro hcon
      exact absurd (List.append_eq_nil.mp hcon).2 (by decide)
    have haddl : ∀ l ∈ addedLines, '\n' ∉ l ∧ l.getLast? ≠ some '\r' := by
      decide
    have hall : ∀ l ∈ ls ++ addedLines, '\n' ∉ l ∧ l.getLast? ≠ some '\r' := by
      intro x hx
      rcases List.mem_append.mp hx with h1 | h2
      · exact hlines x h1
      · exact haddl x h2
    have hclean : ∀ l ∈ ls, containsSub l markerStart = false ∧
        containsSub l markerEnd = false := by
      intro l hl
      exact ⟨containsSub_false_trans hms (infix_unlines hl),
             containsSub_false_trans hme (infix_unlines hl)⟩
    have hcore : removeContentCore (unlines (ls ++ addedLines)) = unlines ls := by
      unfold removeContentCore
      rw [scanLines_unlines happne hall,
          removeLoop_append_clean hclean addedLines, removeLoop_addedLines,
          joinLines_concat_nil hne]
    rw [removeContent_eq, hcore, if_pos (unlines_getLast hne)]

/-- The single original line of the concrete round-trip scenario. -/
def exampleLine : List Char := ("1.2.3.4 example.com").data

/-- Witness for claim C2 at the concrete scenario: the hosts file
consisting of the single line 1.2.3.4 example.com keeps that line through
Add, and Remove afterwards returns exactly the original single line. -/
theorem hosts_add_remove_roundtrip_witness :
    unlines [exampleLine] = ("1.2.3.4 example.com\n").data ∧
    addContent (unlines [exampleLine]) = .ok (unlines ([exampleLine] ++ addedLines)) ∧
    removeContent (unlines ([exampleLine] ++ addedLines)) = unlines [exampleLine] := by
  have h := hosts_add_remove_roundtrip [exampleLine] (by decide) (by decide)
    (by decide) (by decide)
  exact ⟨by decide, h.1, h.2⟩

/-- Claim C8: when the hosts file already contains the marker block, Add
fails with the already-active error and leaves the hosts file exactly as
it was, so no second block is ever inserted. -/
theorem hostsAdd_already_active (fs : HostsFS) (c : List Char)
    (hh : fs.hosts = some c) (hact : isActiveContent c = true) :
    (hostsAdd fs).1 = .error "ddollar entries already exist in hosts file" ∧
    (hostsAdd fs).2.hosts = some c := by
  have hb : backupOp fs = .ok { fs with backup := some c } := by
    unfold backupOp
    rw [hh]
  have hact' : containsSub c markerStart = true := hact
  have ha : addContent c = .error "ddollar entries already exist in hosts file" := by
    unfold addContent
    rw [if_pos hact']
  unfold hostsAdd
  rw [hb]
  dsimp only
  rw [hh]
  simp only [ha]
  exact ⟨trivial, trivial⟩

/-- Witness for claim C8: a hosts file whose content is the appended
block itself makes Add fail and stay unchanged. -/
theorem hostsAdd_already_active_witness :
    isActiveContent entriesString = true ∧
    (hostsAdd { hosts := some entriesString, backup := none }).1 =
      .error "ddollar entries already exist in hosts file" ∧
    (hostsAdd { hosts := some entriesString, backup := none }).2.hosts =
      some entriesString := by
  have h := hostsAdd_already_active
    { hosts := some entriesString, backup := none } entriesString rfl (by decide)
  exact ⟨by decide, h.1, h.2⟩

/-- Claim C10: every Add on a readable hosts file overwrites the backup
with the current hosts content before the marker check, so a failing
second Add has already replaced the backup with the marked-up content (the
backup then contains the redirection block), and the backup write is not
rolled back on error. -/
theorem hostsAdd_overwrites_backup :
    (∀ (fs : HostsFS) (c : List Char), fs.hosts = some c →
      (hostsAdd fs).2.backup = some c) ∧
    (∀ (fs : HostsFS) (c : List Char), fs.hosts = some c →
      isActiveContent c = true →
      hostsAdd fs = (.error "ddollar entries already exist in hosts file",
        { hosts := some c, backup := some c }) ∧
      isActiveContent (((hostsAdd fs).2.backup).getD []) = true) := by
  have hback : ∀ (fs : HostsFS) (c : List Char), fs.hosts = some c →
      (hostsAdd fs).2.backup = some c := by
    intro fs c hh
    have hb : backupOp fs = .ok { fs with backup := some c } := by
      unfold backupOp
      rw [hh]
    unfold hostsAdd
    rw [hb]
    dsimp only
    rw [hh]
    cases ha : addContent c with
    | error e => simp only [ha]
    | ok nc => simp only [ha]
  refine ⟨hback, ?_⟩
  intro fs c hh hact
  have hb : backupOp fs = .ok { fs with backup := some c } := by
    unfold backupOp
    rw [hh]
  have hact' : containsSub c markerStart = true := hact
  have ha : addContent c = .error "ddollar entries already exist in hosts file" := by
    unfold addContent
    rw [if_pos hact']
  have hmain : hostsAdd fs = (.error "ddollar entries already exist in hosts file",
      { hosts := some c, backup := some c }) := by
    unfold hostsAdd
    rw [hb]
    dsimp only
    rw [hh]
    simp only [ha]
  refine ⟨hmain, ?_⟩
  rw [hmain]
  exact hact

/-- Witness for claim C10: after a failed second Add on a hosts file
already holding the block, the backup equals that marked-up content. -/
theorem hostsAdd_overwrites_backup_witness :
    (hostsAdd { hosts := some entriesString, backup := some exampleLine }).2.backup =
      some entriesString ∧
    hostsAdd { hosts := some entriesString, backup := some exampleLine } =
      (.error "ddollar entries already exist in hosts file",
       { hosts := some entriesString, backup := some entriesString }) ∧
    isActiveContent
      (((hostsAdd { hosts := some entriesString, backup := some exampleLine }).2.backup).getD [])
      = true := by
  have h1 := hostsAdd_overwrites_backup.1
    { hosts := some entriesString, backup := some exampleLine } entriesString rfl
  have h2 := hostsAdd_overwrites_backup.2
    { hosts := some entriesString, backup := some exampleLine } entriesString rfl (by decide)
  exact ⟨h1, h2.1, h2.2⟩

/-- Claim C3: Restore without a backup fails with the no-backup error and
leaves the state unchanged; Restore with a backup overwrites the hosts
file with a byte-for-byte copy of the backup and deletes the backup; and
after any Add on a readable hosts file, Restore reproduces the pre-Add
content exactly (the model keeps a single backup slot, so at most one
backup exists at a time). -/
theorem hostsRestore_spec :
    (∀ fs : HostsFS, fs.backup = none →
      hostsRestore fs = (.error "backup file does not exist", fs)) ∧
    (∀ (fs : HostsFS) (b : List Char), fs.backup = some b →
      hostsRestore fs = (.ok (), { hosts := some b, backup := none })) ∧
    (∀ (fs : HostsFS) (c : List Char), fs.hosts = some c →
      (hostsRestore (hostsAdd fs).2).2 = { hosts := some c, backup := none }) := by
  refine ⟨?_, ?_, ?_⟩
  · intro fs hb
    unfold hostsRestore
    rw [hb]
  · intro fs b hb
    unfold hostsRestore
    rw [hb]
  · intro fs c hh
    have hb : backupOp fs = .ok { fs with backup := some c } := by
      unfold backupOp
      rw [hh]
    unfold hostsAdd
    rw [hb]
    dsimp only
    rw [hh]
    cases ha : addContent c with
    | error e =>
      simp only [ha]
      unfold hostsRestore
      rfl
    | ok nc =>
      simp only [ha]
      unfold hostsRestore
      rfl

/-- Witness for claim C3 at concrete states: a missing backup fails and
changes nothing; a present backup is restored byte for byte and deleted;
Add then Restore round-trips the concrete example file. -/
theorem hostsRestore_spec_witness :
    hostsRestore { hosts := some exampleLine, backup := none } =
      (.error "backup file does not exist",
       { hosts := some exampleLine, backup := none }) ∧
    hostsRestore { hosts := some [], backup := some exampleLine } =
      (.ok (), { hosts := some exampleLine, backup := none }) ∧
    (hostsRestore (hostsAdd { hosts := some exampleLine, backup := none }).2).2 =
      { hosts := some exampleLine, backup := none } := by
  have h := hostsRestore_spec
  exact ⟨h.1 _ rfl, h.2.1 _ exampleLine rfl, h.2.2 _ exampleLine rfl⟩

/-! ## Certificate lemmas -/

/-- A freshly generated leaf certificate over the fixed domain list passes
validation at its generation time. -/
lemma validateCert_fresh (now : Int) :
    validateCert now (some (generateLeafCert now certDomains)) = .ok () := by
  unfold validateCert generateLeafCert
  dsimp only
  rw [if_neg (lt_irrefl now)]
  rw [if_neg (by unfold leafValiditySeconds; omega)]
  rw [show requiredDomains.find? (fun req => !(certDomains.contains req)) = none
    from by decide]

/-- A certificate that passes validation covers every required domain. -/
lemma validateCert_ok_domains {now : Int} {cert : LeafCert}
    (h : validateCert now (some cert) = .ok ()) :
    ∀ d ∈ requiredDomains, d ∈ cert.dnsNames := by
  simp only [validateCert] at h
  by_cases h1 : now < cert.notBefore
  · rw [if_pos h1] at h; cases h
  · rw [if_neg h1] at h
    by_cases h2 : cert.notAfter < now
    · rw [if_pos h2] at h; cases h
    · rw [if_neg h2] at h
      cases hf : requiredDomains.find? (fun req => !(cert.dnsNames.contains req)) with
      | some req => rw [hf] at h; cases h
      | none =>
        intro d hd
        have := List.find?_eq_none.mp hf d hd
        simpa using this

/-- Claim C6: immediately after GenerateCert, ValidateCert on the
resulting certificate succeeds and its SAN list covers every required
domain including the loopback alias; and when a certificate already exists
and passes validation, GenerateCert returns the state unchanged without
regenerating. -/
theorem generateCert_valid_and_idempotent :
    (∀ (now : Int) (st : CertState),
      validateCert now ((generateCertOp now st).1).cert = .ok () ∧
      ∃ cert, ((generateCertOp now st).1).cert = some cert ∧
        (∀ d ∈ requiredDomains, d ∈ cert.dnsNames) ∧
        "localhost" ∈ cert.dnsNames) ∧
    (∀ (now : Int) (st : CertState) (cert : LeafCert), st.cert = some cert →
      validateCert now (some cert) = .ok () →
      generateCertOp now st = (st, false)) := by
  constructor
  · intro now st
    cases hst : st.cert with
    | none =>
      have hgen : generateCertOp now st =
          ({ cert := some (generateLeafCert now certDomains) }, true) := by
        unfold generateCertOp
        rw [hst]
      rw [hgen]
      refine ⟨validateCert_fresh now, generateLeafCert now certDomains, rfl, ?_, ?_⟩
      · exact validateCert_ok_domains (validateCert_fresh now)
      · exact validateCert_ok_domains (validateCert_fresh now) "localhost" (by decide)
    | some c =>
      cases hv : validateCert now (some c) with
      | ok u =>
        have hgen : generateCertOp now st = (st, false) := by
          unfold generateCertOp
          rw [hst]
          simp only [hv]
        rw [hgen]
        cases u
        refine ⟨by rw [hst]; exact hv, c, hst, validateCert_ok_domains hv, ?_⟩
        exact validateCert_ok_domains hv "localhost" (by decide)
      | error e =>
        have hgen : generateCertOp now st =
            ({ cert := some (generateLeafCert now certDomains) }, true) := by
          unfold generateCertOp
          rw [hst]
          simp only [hv]
        rw [hgen]
        refine ⟨validateCert_fresh now, generateLeafCert now certDomains, rfl, ?_, ?_⟩
        · exact validateCert_ok_domains (validateCert_fresh now)
        · exact validateCert_ok_domains (validateCert_fresh now) "localhost" (by decide)
  · intro now st cert hst hv
    unfold generateCertOp
    rw [hst]
    simp only [hv]

/-- Witness for claim C6: at time zero, generating from an empty certs
directory yields a valid covering certificate, and a second GenerateCert
over the now-valid certificate changes nothing. -/
theorem generateCert_valid_and_idempotent_witness :
    validateCert 0 ((generateCertOp 0 { cert := none }).1).cert = .ok () ∧
    generateCertOp 0 (generateCertOp 0 { cert := none }).1 =
      ((generateCertOp 0 { cert := none }).1, false) := by
  have h := generateCert_valid_and_idempotent
  refine ⟨(h.1 0 { cert := none }).1, ?_⟩
  exact h.2 0 (generateCertOp 0 { cert := none }).1
    (generateLeafCert 0 certDomains) rfl (validateCert_fresh 0)

/-! ## Trust verification -/

/-- Claim C1 (demonstration of the code defect): after UninstallTrust has
removed the CA from both Linux trust-store locations, the platform store
reports the CA as not found, yet VerifyTrust still returns success for any
CA inside its validity window, because its first step verifies the CA
against a certificate pool containing only the CA itself.  The
verification result is therefore not re-derived from the live trust-store
state, contradicting the no-stale-positive requirement. -/
theorem verifyTrust_stale_positive :
    uninstallTrustLinux { debInstalled := true, rhelInstalled := true } =
      { debInstalled := false, rhelInstalled := false } ∧
    verifyTrustLinux { debInstalled := false, rhelInstalled := false } =
      .error "CA not found in Linux trust store" ∧
    verifyTrust { validFrom := 0, validUntil := 100, commonName := "ddollar Local CA" }
      50 (uninstallTrustLinux { debInstalled := true, rhelInstalled := true }) =
      .ok () := by
  exact ⟨rfl, rfl, rfl⟩

/-! ## Watchdog lemmas -/

/-- The cleanup sequence performs exactly one hosts removal and no
trust-store operation, whatever the removal outcome. -/
lemma cleanupActions_counts (res : Except String Unit) :
    (cleanupActions res).countP WatchdogAction.isRemove = 1 ∧
    (cleanupActions res).countP WatchdogAction.isTrustOp = 0 := by
  cases res <;>
    simp [cleanupActions, List.countP_cons, WatchdogAction.isRemove,
      WatchdogAction.isTrustOp]

/-- Claim C5: whenever the watchdog observes parent death it performs
exactly one cleanup action (a single hosts Remove) and exits; it never
performs more than one removal, never performs a trust-store operation,
and on removal failure prints the manual-cleanup instruction to stderr
instead of acting further. -/
theorem watchdog_single_cleanup (trace : List Bool) (res : Except String Unit) :
    (runWatchdogActions trace res).countP WatchdogAction.isRemove ≤ 1 ∧
    (false ∈ trace →
      (runWatchdogActions trace res).countP WatchdogAction.isRemove = 1) ∧
    (runWatchdogActions trace res).countP WatchdogAction.isTrustOp = 0 ∧
    (∀ e, res = .error e → false ∈ trace →
      .stderrMsg "Please manually edit /etc/hosts and remove ddollar entries\n" ∈
        runWatchdogActions trace res) := by
  induction trace with
  | nil =>
    refine ⟨by simp [runWatchdogActions], ?_, by simp [runWatchdogActions], ?_⟩
    · intro hf; cases hf
    · intro e _ hf; cases hf
  | cons b rest ih =>
    cases b with
    | false =>
      have hrun : runWatchdogActions (false :: rest) res = cleanupActions res := rfl
      rw [hrun]
      have hc := cleanupActions_counts res
      refine ⟨le_of_eq hc.1, fun _ => hc.1, hc.2, ?_⟩
      intro e hres _
      rw [hres]
      simp [cleanupActions]
    | true =>
      have hrun : runWatchdogActions (true :: rest) res =
          runWatchdogActions rest res := rfl
      rw [hrun]
      refine ⟨ih.1, ?_, ih.2.2.1, ?_⟩
      · intro hf
        have : false ∈ rest := by simpa using hf
        exact ih.2.1 this
      · intro e hres hf
        have : false ∈ rest := by simpa using hf
        exact ih.2.2.2 e hres this

/-- Witness for claim C5: with a parent alive for one tick then dead, and
a failing hosts removal, the watchdog emits exactly one removal, no
trust-store operation, and the manual-cleanup stderr line. -/
theorem watchdog_single_cleanup_witness :
    (runWatchdogActions [true, false] (.error "boom")).countP
      WatchdogAction.isRemove = 1 ∧
    (runWatchdogActions [true, false] (.error "boom")).countP
      WatchdogAction.isTrustOp = 0 ∧
    .stderrMsg "Please manually edit /etc/hosts and remove ddollar entries\n" ∈
      runWatchdogActions [true, false] (.error "boom") := by
  have h := watchdog_single_cleanup [true, false] (.error "boom")
  exact ⟨h.2.1 (by decide), h.2.2.1, h.2.2.2 "boom" rfl (by decide)⟩

/-! ## Header lemmas -/

/-- Deleting a key whose canonical form matches the looked-up key makes
the lookup fail. -/
lemma hGet_hDel_self {h : Header} {k k' : String}
    (hkk : canonicalKey k = canonicalKey k') :
    hGet (hDel h k') k = none := by
  induction h with
  | nil => rfl
  | cons e rest ih =>
    obtain ⟨a, v⟩ := e
    by_cases h1 : a = canonicalKey k'
    · have : hDel ((a, v) :: rest) k' = hDel rest k' := by
        simp [hDel, h1]
      rw [this, ih]
    · have : hDel ((a, v) :: rest) k' = (a, v) :: hDel rest k' := by
        simp [hDel, h1]
      rw [this]
      show (if a = canonicalKey k then some v else hGet (hDel rest k') k) = none
      rw [if_neg (by rw [hkk]; exact h1), ih]

/-- Deleting an unrelated key leaves a lookup unchanged. -/
lemma hGet_hDel_other {h : Header} {k k' : String}
    (hkk : canonicalKey k ≠ canonicalKey k') :
    hGet (hDel h k') k = hGet h k := by
  induction h with
  | nil => rfl
  | cons e rest ih =>
    obtain ⟨a, v⟩ := e
    by_cases h1 : a = canonicalKey k'
    · have hd : hDel ((a, v) :: rest) k' = hDel rest k' := by
        simp [hDel, h1]
      rw [hd, ih]
      show hGet rest k = (if a = canonicalKey k then some v else hGet rest k)
      rw [if_neg (by rw [h1]; exact fun he => hkk he.symm)]
    · have hd : hDel ((a, v) :: rest) k' = (a, v) :: hDel rest k' := by
        simp [hDel, h1]
      rw [hd]
      show (if a = canonicalKey k then some v else hGet (hDel rest k') k) =
        (if a = canonicalKey k then some v else hGet rest k)
      rw [ih]

/-- A freshly Set key looks up to exactly its single value. -/
lemma hGet_hSet_self (h : Header) (k v : String) :
    hGet (hSet h k v) k = some [v] := by
  show (if canonicalKey k = canonicalKey k then some [v] else _) = some [v]
  rw [if_pos rfl]

/-- Setting an unrelated key leaves a lookup looking at the deleted
remainder. -/
lemma hGet_hSet_other {k k' : String} (h : Header) (v : String)
    (hkk : canonicalKey k ≠ canonicalKey k') :
    hGet (hSet h k' v) k = hGet (hDel h k') k := by
  show (if canonicalKey k' = canonicalKey k then some [v] else hGet (hDel h k') k) = _
  rw [if_neg (fun he => hkk he.symm)]

/-- Claim C7: for every proxied request whose GetToken succeeds, the
upstream request contains none of the client-supplied authorization-style
headers (Authorization, x-api-key and x-goog-api-key are all stripped
unless one is the provider auth header itself, which is overwritten), the
provider auth header carries exactly the provider prefix concatenated with
the rotated token, the scheme is forced to https, and both the URL host
and the Host header are the upstream domain. -/
theorem handleRequest_strips_and_injects
    (pool pool' : Pool) (r : HttpRequest) (token : String) (provider : Provider)
    (h : getToken pool r.host = (.ok (token, provider), pool')) :
    ∃ u : UpstreamRequest,
      handleRequest pool r = (.ok u, pool') ∧
      u.scheme = "https" ∧
      u.urlHost = r.host ∧
      u.hostHeader = r.host ∧
      hGet u.headers provider.authHeader = some [provider.authPrefix ++ token] ∧
      (∀ k ∈ (["Authorization", "x-api-key", "x-goog-api-key"] : List String),
        canonicalKey k ≠ canonicalKey provider.authHeader →
          hGet u.headers k = none) := by
  have hmain : handleRequest pool r =
      (.ok { scheme := "https"
             urlHost := r.host
             hostHeader := r.host
             method := r.method
             path := singleJoiningSlash r.path r.path
             rawQuery := if r.rawQuery = "" || r.rawQuery = "" then
                 r.rawQuery ++ r.rawQuery
               else r.rawQuery ++ "&" ++ r.rawQuery
             headers := hSet
               (hDel (hDel (hDel r.headers "Authorization") "x-api-key") "x-goog-api-key")
               provider.authHeader (provider.authPrefix ++ token) }, pool') := by
    unfold handleRequest
    simp only [h]
  refine ⟨_, hmain, rfl, rfl, rfl, hGet_hSet_self _ _ _, ?_⟩
  intro k hk hne
  have hstep := hGet_hSet_other
    (hDel (hDel (hDel r.headers "Authorization") "x-api-key") "x-goog-api-key")
    (provider.authPrefix ++ token) hne
  rw [hstep, hGet_hDel_other hne]
  have hk3 : k = "Authorization" ∨ k = "x-api-key" ∨ k = "x-goog-api-key" := by
    simpa using hk
  rcases hk3 with rfl | rfl | rfl
  · rw [hGet_hDel_other
        (show canonicalKey "Authorization" ≠ canonicalKey "x-goog-api-key" from by decide),
      hGet_hDel_other
        (show canonicalKey "Authorization" ≠ canonicalKey "x-api-key" from by decide),
      hGet_hDel_self rfl]
  · rw [hGet_hDel_other
        (show canonicalKey "x-api-key" ≠ canonicalKey "x-goog-api-key" from by decide),
      hGet_hDel_self rfl]
  · rw [hGet_hDel_self rfl]

/-- The Anthropic provider configuration from providers.go, used as the
concrete witness provider. -/
def anthropicProvider : Provider :=
  { name := "Anthropic", domain := "api.anthropic.com",
    envVars := ["ANTHROPIC_API_KEY"], authHeader := "x-api-key",
    authPrefix := "" }

/-- A concrete pool holding one Anthropic token. -/
def anthropicPool : Pool :=
  [("api.anthropic.com",
    { provider := anthropicProvider, tokens := ["sk-test"], index := 0 })]

/-- A concrete inbound request carrying client-supplied credentials. -/
def clientRequest : HttpRequest :=
  { host := "api.anthropic.com", method := "POST", path := "/v1/messages",
    rawQuery := "",
    headers := [("Authorization", ["Bearer client-secret"]),
                ("X-Api-Key", ["client-key"])] }

/-- Witness for claim C7: proxying the concrete client request strips the
client Authorization header and replaces the client x-api-key value with
the pool token sk-test. -/
theorem handleRequest_strips_and_injects_witness :
    ∃ u : UpstreamRequest,
      handleRequest anthropicPool clientRequest =
        (.ok u, ("api.anthropic.com",
          { provider := anthropicProvider, tokens := ["sk-test"], index := 0 })
            :: anthropicPool) ∧
      u.scheme = "https" ∧
      u.urlHost = "api.anthropic.com" ∧
      hGet u.headers "x-api-key" = some ["sk-test"] ∧
      hGet u.headers "Authorization" = none := by
  obtain ⟨u, hmain, hs, hu, _, hinj, hstrip⟩ :=
    handleRequest_strips_and_injects anthropicPool
      (("api.anthropic.com",
        { provider := anthropicProvider, tokens := ["sk-test"], index := 0 })
          :: anthropicPool)
      clientRequest "sk-test" anthropicProvider rfl
  refine ⟨u, hmain, hs, hu, ?_, ?_⟩
  · simpa using hinj
  · exact hstrip "Authorization" (by decide) (by decide)

end DDollar
